import Mathlib

/-!
Verification of the greedy supervised discretization engine:
pair index, candidate generator (midpoints of consecutive distinct values),
separation oracle, greedy cut-selection loop (primary and secondary
criteria), interval mapper and statistics.
-/

namespace Discret

abbrev Pair := ℕ × ℕ

/-- A table: each row is a list of numeric attribute values plus a decision
value (decisions are equality-compared only, modelled as ℕ).  `nAttrs` is the
number of attribute columns. -/
structure Table where
  nAttrs : ℕ
  rows : List (List ℚ × ℕ)

/-- `data.at[i, attr]` — the attribute value of row `i` at column `a`. -/
def valAt (t : Table) (i a : ℕ) : ℚ := ((t.rows.getD i ([], 0)).1).getD a 0

/-- The full column of attribute `a` (`data[attr]`). -/
def colN (t : Table) (a : ℕ) : List ℚ := t.rows.map (fun r => r.1.getD a 0)

/-- Decision value of row `i`. -/
def decAt (t : Table) (i : ℕ) : ℕ := (t.rows.getD i ([], 0)).2

/-- `generate_object_pairs`: all index pairs `i < j` (in
`itertools.combinations` order) whose decision values differ. -/
def genPairs (t : Table) : List Pair :=
  ((List.range t.rows.length).flatMap (fun i =>
    (List.range' (i + 1) (t.rows.length - (i + 1))).map (fun j => (i, j)))).filter
    (fun p => decide (decAt t p.1 ≠ decAt t p.2))

/-- `sorted(set(values))`: the sorted list of distinct values. -/
def sortedDedup (l : List ℚ) : List ℚ := List.insertionSort (· ≤ ·) l.dedup

/-- `find_possible_cuts`: midpoints of consecutive distinct sorted values. -/
def findPossibleCuts (values : List ℚ) : List ℚ :=
  (List.range ((sortedDedup values).length - 1)).map
    (fun i => ((sortedDedup values).getD i 0 + (sortedDedup values).getD (i + 1) 0) / 2)

/-- `check_separation`: some cut has the two values on opposite sides
(value equal to a cut counts as the left side). -/
def checkSeparation (row1 row2 : ℚ) (cuts : List ℚ) : Bool :=
  cuts.any (fun cut =>
    decide ((row1 ≤ cut ∧ cut < row2) ∨ (row2 ≤ cut ∧ cut < row1)))

/-- The `best` record of the selection loop; `cutsCount` starts at
`float("inf")`, modelled by `⊤ : ℕ∞`. -/
structure Best where
  gain : ℕ
  attr : Option ℕ
  cut : Option ℚ
  newSeparations : Finset Pair
  cutsCount : ℕ∞

def initBest : Best := ⟨0, none, none, ∅, ⊤⟩

/-- Engine state: per-attribute cut lists, the separated-pairs set and the
running counters. -/
structure EngState where
  cuts : List (List ℚ)
  separatedPairs : Finset Pair
  cutsAdded : ℕ
  cutsPerAttr : List ℕ

def initState (t : Table) : EngState :=
  ⟨List.replicate t.nAttrs [], ∅, 0, List.replicate t.nAttrs 0⟩

/-- `sorted(cuts[attr] + [cut])`. -/
def tempCuts (st : EngState) (a : ℕ) (c : ℚ) : List ℚ :=
  List.insertionSort (· ≤ ·) (st.cuts.getD a [] ++ [c])

/-- The newly separated pairs a trial cut would add. -/
def newSeps (t : Table) (pairs : List Pair) (st : EngState) (a : ℕ) (c : ℚ) :
    Finset Pair :=
  (pairs.filter (fun p => decide (p ∉ st.separatedPairs ∧
    checkSeparation (valAt t p.1 a) (valAt t p.2 a) (tempCuts st a c) = true))).toFinset

/-- The `best`-record payload of the trial cut `c` on attribute `a`. -/
def mkBest (t : Table) (pairs : List Pair) (st : EngState) (a : ℕ) (c : ℚ) : Best :=
  ⟨(newSeps t pairs st a c).card, some a, some c, newSeps t pairs st a c,
    ((tempCuts st a c).length : ℕ∞)⟩

/-- Candidate enumeration order of the loop body: every attribute in order,
every fresh midpoint candidate in order. -/
def allCands (t : Table) : List (ℕ × ℚ) :=
  (List.range t.nAttrs).flatMap
    (fun a => (findPossibleCuts (colN t a)).map (fun c => (a, c)))

/-- One `best`-update of the inner double loop, under the active criterion. -/
def updBest (sec : Bool) (t : Table) (pairs : List Pair) (st : EngState)
    (b : Best) (ac : ℕ × ℚ) : Best :=
  let nb := mkBest t pairs st ac.1 ac.2
  if sec then
    if 0 < nb.gain ∧ (nb.cutsCount < b.cutsCount ∨
        (nb.cutsCount = b.cutsCount ∧ b.gain < nb.gain)) then nb else b
  else
    if b.gain < nb.gain then nb else b

/-- One full scan over every (attribute, candidate) combination. -/
def chooseBest (sec : Bool) (t : Table) (pairs : List Pair) (st : EngState) : Best :=
  (allCands t).foldl (updBest sec t pairs st) initBest

/-- Committing the winning candidate. -/
def commit (st : EngState) (b : Best) : EngState :=
  match b.attr, b.cut with
  | some a, some c =>
      { cuts := st.cuts.set a (List.insertionSort (· ≤ ·) (st.cuts.getD a [] ++ [c]))
        separatedPairs := st.separatedPairs ∪ b.newSeparations
        cutsAdded := st.cutsAdded + 1
        cutsPerAttr := st.cutsPerAttr.set a (st.cutsPerAttr.getD a 0 + 1) }
  | _, _ => st

/-- One round of the `while True` loop (identity once no gain is possible). -/
def engineStep (sec : Bool) (t : Table) (pairs : List Pair) (st : EngState) : EngState :=
  if (chooseBest sec t pairs st).gain = 0 then st
  else commit st (chooseBest sec t pairs st)

/-- The greedy loop, with explicit fuel (the `while True`/`break` loop). -/
def loop (sec : Bool) (t : Table) (pairs : List Pair) : ℕ → EngState → EngState
  | 0, st => st
  | Nat.succ fuel, st =>
      if (chooseBest sec t pairs st).gain = 0 then st
      else loop sec t pairs fuel (commit st (chooseBest sec t pairs st))

/-- `discretize_data`'s loop run to convergence (one more unit of fuel than
there are discordant pairs always suffices). -/
def runEngine (t : Table) (sec : Bool) : EngState :=
  loop sec t (genPairs t) ((genPairs t).length + 1) (initState t)

/-- `coverage` statistic: separated / total, 0 when there are no pairs. -/
def coverage (t : Table) (st : EngState) : ℚ :=
  if (genPairs t).length = 0 then 0
  else (st.separatedPairs.card : ℚ) / ((genPairs t).length : ℚ)

/-- Scan of the interval mapper, carrying the running left endpoint
(`none` is the −∞/∞ sentinel). -/
def assignIntervalGo (v : ℚ) (left : Option ℚ) : List ℚ → Option ℚ × Option ℚ
  | [] => (left, none)
  | c :: rest => if v ≤ c then (left, some c) else assignIntervalGo v (some c) rest

/-- Interval label `(left; right]` of a value under a frozen cut list. -/
def assignInterval (cuts : List ℚ) (v : ℚ) : Option ℚ × Option ℚ :=
  if cuts = [] then (none, none) else assignIntervalGo v none cuts

/-- The discretized output column of attribute `a`. -/
def discretizedColumn (t : Table) (st : EngState) (a : ℕ) :
    List (Option ℚ × Option ℚ) :=
  (colN t a).map (fun v => assignInterval (st.cuts.getD a []) v)

/-- Discordant pairs whose rows differ on at least one attribute — the pairs
any cut can ever separate. -/
def separablePairs (t : Table) : Finset Pair :=
  ((genPairs t).filter (fun p =>
    decide (∃ a ∈ List.range t.nAttrs, valAt t p.1 a ≠ valAt t p.2 a))).toFinset

end Discret

namespace Discret

attribute [local semireducible] Rat.add Rat.mul Rat.inv Rat.sub

/-! ### Separation oracle -/

lemma checkSeparation_iff {x y : ℚ} {cuts : List ℚ} :
    checkSeparation x y cuts = true ↔
      ∃ c ∈ cuts, (x ≤ c ∧ c < y) ∨ (y ≤ c ∧ c < x) := by
  simp [checkSeparation]

lemma checkSeparation_mem_congr {x y : ℚ} {cuts cuts' : List ℚ}
    (h : ∀ c, c ∈ cuts ↔ c ∈ cuts') :
    checkSeparation x y cuts = checkSeparation x y cuts' := by
  rcases hc : checkSeparation x y cuts' with _ | _
  · rcases hd : checkSeparation x y cuts with _ | _
    · rfl
    · exfalso
      obtain ⟨c, hmem, hsep⟩ := checkSeparation_iff.mp hd
      have : checkSeparation x y cuts' = true :=
        checkSeparation_iff.mpr ⟨c, (h c).mp hmem, hsep⟩
      simp [hc] at this
  · obtain ⟨c, hmem, hsep⟩ := checkSeparation_iff.mp hc
    exact checkSeparation_iff.mpr ⟨c, (h c).mpr hmem, hsep⟩

lemma checkSeparation_ne {x y : ℚ} {cuts : List ℚ}
    (h : checkSeparation x y cuts = true) : x ≠ y := by
  obtain ⟨c, _, hc⟩ := checkSeparation_iff.mp h
  rcases hc with ⟨h1, h2⟩ | ⟨h1, h2⟩ <;> intro he <;> subst he <;> exact absurd h2 (not_lt.mpr h1)

lemma checkSeparation_nil {x y : ℚ} : checkSeparation x y [] = false := rfl

/-! ### Pair index -/

lemma mem_genPairs {t : Table} {i j : ℕ} :
    (i, j) ∈ genPairs t ↔
      i < j ∧ j < t.rows.length ∧ decAt t i ≠ decAt t j := by
  simp only [genPairs, List.mem_filter, List.mem_flatMap, List.mem_map, List.mem_range,
    List.mem_range', decide_eq_true_iff, Prod.mk.injEq]
  constructor
  · rintro ⟨⟨i', hi', j', ⟨k, hk, rfl⟩, rfl, rfl⟩, hd⟩
    exact ⟨by omega, by omega, hd⟩
  · rintro ⟨hij, hj, hd⟩
    exact ⟨⟨i, by omega, j, ⟨j - (i + 1), by omega, by omega⟩, rfl, rfl⟩, hd⟩

lemma nodup_genPairs (t : Table) : (genPairs t).Nodup := by
  apply List.Nodup.filter
  rw [List.nodup_flatMap]
  constructor
  · intro i _
    exact (List.nodup_range' ..).map (fun a b h => by
      simpa using congrArg Prod.snd h)
  · apply List.Pairwise.imp ?_ (List.nodup_range _)
    intro a b hab
    simp only [Function.onFun, List.disjoint_left]
    rintro ⟨x1, x2⟩ hx hy
    simp only [List.mem_map] at hx hy
    obtain ⟨j1, _, he1⟩ := hx
    obtain ⟨j2, _, he2⟩ := hy
    cases he1; cases he2; exact hab rfl

lemma genPairs_lt_length {t : Table} {i j : ℕ} (h : (i, j) ∈ genPairs t) :
    i < t.rows.length ∧ j < t.rows.length := by
  obtain ⟨h1, h2, _⟩ := mem_genPairs.mp h
  exact ⟨h1.trans h2, h2⟩

/-! ### Column access -/

lemma valAt_mem_colN {t : Table} {i : ℕ} (a : ℕ) (h : i < t.rows.length) :
    valAt t i a ∈ colN t a := by
  simp only [valAt, colN, List.getD_eq_getElem?_getD, List.getElem?_eq_getElem h]
  exact List.mem_map.mpr ⟨t.rows[i], List.getElem_mem h, rfl⟩

/-! ### Candidate generator -/

lemma sortedDedup_sorted_le (l : List ℚ) : (sortedDedup l).Sorted (· ≤ ·) :=
  List.sorted_insertionSort _ _

lemma sortedDedup_nodup (l : List ℚ) : (sortedDedup l).Nodup :=
  ((List.perm_insertionSort _ l.dedup).nodup_iff).mpr l.nodup_dedup

lemma sortedDedup_sorted_lt (l : List ℚ) : (sortedDedup l).Sorted (· < ·) :=
  List.Sorted.lt_of_le (sortedDedup_sorted_le l) (sortedDedup_nodup l)

lemma mem_sortedDedup {l : List ℚ} {x : ℚ} : x ∈ sortedDedup l ↔ x ∈ l := by
  simp only [sortedDedup]
  rw [(List.perm_insertionSort _ l.dedup).mem_iff, List.mem_dedup]

lemma length_sortedDedup (l : List ℚ) : (sortedDedup l).length = l.dedup.length :=
  (List.perm_insertionSort _ l.dedup).length_eq

lemma mem_findPossibleCuts {l : List ℚ} {c : ℚ} :
    c ∈ findPossibleCuts l ↔ ∃ i, i + 1 < (sortedDedup l).length ∧
      c = ((sortedDedup l).getD i 0 + (sortedDedup l).getD (i + 1) 0) / 2 := by
  simp only [findPossibleCuts, List.mem_map, List.mem_range]
  constructor
  · rintro ⟨i, hi, rfl⟩; exact ⟨i, by omega, rfl⟩
  · rintro ⟨i, hi, rfl⟩; exact ⟨i, by omega, rfl⟩

lemma length_findPossibleCuts (l : List ℚ) :
    (findPossibleCuts l).length = l.toFinset.card - 1 := by
  simp [findPossibleCuts, length_sortedDedup, List.card_toFinset]

lemma getD_q {l : List ℚ} {i : ℕ} (h : i < l.length) : l.getD i 0 = l.get ⟨i, h⟩ := by
  simp [List.getD_eq_getElem?_getD, List.getElem?_eq_getElem h, List.get_eq_getElem]

lemma sortedDedup_le_of_le {l : List ℚ} {i j : ℕ} (hj : j < (sortedDedup l).length)
    (hij : i ≤ j) :
    (sortedDedup l).getD i 0 ≤ (sortedDedup l).getD j 0 := by
  rw [getD_q (lt_of_le_of_lt hij hj), getD_q hj]
  exact (sortedDedup_sorted_le l).rel_get_of_le (by simpa [Fin.le_def] using hij)

lemma sortedDedup_lt_of_lt {l : List ℚ} {i j : ℕ} (hj : j < (sortedDedup l).length)
    (hij : i < j) :
    (sortedDedup l).getD i 0 < (sortedDedup l).getD j 0 := by
  rw [getD_q (lt_trans hij hj), getD_q hj]
  exact (sortedDedup_sorted_lt l).rel_get_of_lt (by simpa [Fin.lt_def] using hij)

lemma midpoint_between {l : List ℚ} {i : ℕ} (h : i + 1 < (sortedDedup l).length) :
    (sortedDedup l).getD i 0 <
        ((sortedDedup l).getD i 0 + (sortedDedup l).getD (i + 1) 0) / 2 ∧
      ((sortedDedup l).getD i 0 + (sortedDedup l).getD (i + 1) 0) / 2 <
        (sortedDedup l).getD (i + 1) 0 := by
  have hlt := sortedDedup_lt_of_lt h (Nat.lt_succ_self i)
  constructor <;> linarith

lemma findPossibleCuts_not_mem {l : List ℚ} {c : ℚ} (hc : c ∈ findPossibleCuts l)
    {v : ℚ} (hv : v ∈ l) : v ≠ c := by
  obtain ⟨i, hi, rfl⟩ := mem_findPossibleCuts.mp hc
  obtain ⟨⟨m, hm⟩, hgm⟩ := List.mem_iff_get.mp (mem_sortedDedup.mpr hv)
  intro he
  rcases le_or_lt m i with hmi | him
  · have h1 : (sortedDedup l).getD m 0 ≤ (sortedDedup l).getD i 0 :=
      sortedDedup_le_of_le (by omega) hmi
    rw [getD_q hm, hgm, he] at h1
    exact absurd h1 (not_le.mpr (midpoint_between hi).1)
  · have h1 : (sortedDedup l).getD (i + 1) 0 ≤ (sortedDedup l).getD m 0 :=
      sortedDedup_le_of_le hm him
    rw [getD_q hm, hgm, he] at h1
    exact absurd h1 (not_le.mpr (midpoint_between hi).2)

lemma findPossibleCuts_strict_range {l : List ℚ} {c : ℚ} (hc : c ∈ findPossibleCuts l) :
    (∃ v ∈ l, v < c) ∧ ∃ w ∈ l, c < w := by
  obtain ⟨i, hi, rfl⟩ := mem_findPossibleCuts.mp hc
  have h1 := (midpoint_between hi).1
  have h2 := (midpoint_between hi).2
  refine ⟨⟨(sortedDedup l).getD i 0, ?_, h1⟩, (sortedDedup l).getD (i + 1) 0, ?_, h2⟩
  · rw [getD_q (by omega : i < (sortedDedup l).length)]
    exact mem_sortedDedup.mp (List.get_mem ..)
  · rw [getD_q hi]
    exact mem_sortedDedup.mp (List.get_mem ..)

lemma exists_cut_between {l : List ℚ} {x y : ℚ} (hx : x ∈ l) (hy : y ∈ l)
    (hxy : x < y) : ∃ c ∈ findPossibleCuts l, x ≤ c ∧ c < y := by
  obtain ⟨⟨ix, hix⟩, hgx⟩ := List.mem_iff_get.mp (mem_sortedDedup.mpr hx)
  obtain ⟨⟨iy, hiy⟩, hgy⟩ := List.mem_iff_get.mp (mem_sortedDedup.mpr hy)
  have hixy : ix < iy := by
    by_contra h
    have h1 : (sortedDedup l).getD iy 0 ≤ (sortedDedup l).getD ix 0 :=
      sortedDedup_le_of_le hix (by omega)
    rw [getD_q hix, getD_q hiy, hgx, hgy] at h1
    exact absurd hxy (not_lt.mpr h1)
  have hxe : (sortedDedup l).getD ix 0 = x := by rw [getD_q hix]; exact hgx
  have hye : (sortedDedup l).getD iy 0 = y := by rw [getD_q hiy]; exact hgy
  refine ⟨((sortedDedup l).getD ix 0 + (sortedDedup l).getD (ix + 1) 0) / 2,
    mem_findPossibleCuts.mpr ⟨ix, by omega, rfl⟩, ?_, ?_⟩
  · have h1 := (midpoint_between (by omega : ix + 1 < (sortedDedup l).length)).1
    linarith
  · have h2 := (midpoint_between (by omega : ix + 1 < (sortedDedup l).length)).2
    have h3 : (sortedDedup l).getD (ix + 1) 0 ≤ (sortedDedup l).getD iy 0 :=
      sortedDedup_le_of_le hiy (by omega)
    linarith

lemma findPossibleCuts_sorted (l : List ℚ) : (findPossibleCuts l).Sorted (· < ·) := by
  unfold findPossibleCuts
  rw [List.Sorted, List.pairwise_map]
  refine List.Pairwise.imp_of_mem ?_ (List.pairwise_lt_range _)
  intro a b ha hb hab
  rw [List.mem_range] at ha hb
  have h1 : (sortedDedup l).getD a 0 < (sortedDedup l).getD b 0 :=
    sortedDedup_lt_of_lt (by omega) hab
  have h2 : (sortedDedup l).getD (a + 1) 0 ≤ (sortedDedup l).getD (b + 1) 0 :=
    sortedDedup_le_of_le (by omega) (by omega)
  linarith

/-! ### Trial cut sets and candidate enumeration -/

lemma mem_tempCuts {st : EngState} {a : ℕ} {c z : ℚ} :
    z ∈ tempCuts st a c ↔ z ∈ st.cuts.getD a [] ∨ z = c := by
  unfold tempCuts
  rw [(List.perm_insertionSort _ _).mem_iff]
  simp

lemma mem_newSeps {t : Table} {pairs : List Pair} {st : EngState} {a : ℕ} {c : ℚ}
    {p : Pair} :
    p ∈ newSeps t pairs st a c ↔ p ∈ pairs ∧ p ∉ st.separatedPairs ∧
      checkSeparation (valAt t p.1 a) (valAt t p.2 a) (tempCuts st a c) = true := by
  simp [newSeps, List.mem_filter, and_assoc]

lemma newSeps_disjoint (t : Table) (pairs : List Pair) (st : EngState) (a : ℕ)
    (c : ℚ) : Disjoint st.separatedPairs (newSeps t pairs st a c) := by
  rw [Finset.disjoint_right]
  intro p hp
  exact (mem_newSeps.mp hp).2.1

lemma mem_allCands {t : Table} {a : ℕ} {c : ℚ} :
    (a, c) ∈ allCands t ↔ a < t.nAttrs ∧ c ∈ findPossibleCuts (colN t a) := by
  simp only [allCands, List.mem_flatMap, List.mem_map, List.mem_range, Prod.mk.injEq]
  constructor
  · rintro ⟨a', ha', c', hc', rfl, rfl⟩
    exact ⟨ha', hc'⟩
  · rintro ⟨ha, hc⟩
    exact ⟨a, ha, c, hc, rfl, rfl⟩

/-! ### The best-candidate fold -/

/-- Every intermediate `best` record is either the initial record or the
payload of some enumerated candidate with positive gain. -/
def IsCandBest (t : Table) (pairs : List Pair) (st : EngState) (b : Best) : Prop :=
  b = initBest ∨
    ∃ a c, (a, c) ∈ allCands t ∧ b = mkBest t pairs st a c ∧ 0 < b.gain

lemma gain_mkBest (t : Table) (pairs : List Pair) (st : EngState) (a : ℕ) (c : ℚ) :
    (mkBest t pairs st a c).gain = (newSeps t pairs st a c).card := rfl

lemma updBest_isCand {sec : Bool} {t : Table} {pairs : List Pair} {st : EngState}
    {b : Best} {ac : ℕ × ℚ} (hac : ac ∈ allCands t)
    (hb : IsCandBest t pairs st b) :
    IsCandBest t pairs st (updBest sec t pairs st b ac) := by
  unfold updBest
  cases sec
  · simp only [Bool.false_eq_true, if_false]
    split_ifs with h
    · exact Or.inr ⟨ac.1, ac.2, by simpa using hac, rfl, by omega⟩
    · exact hb
  · simp only [if_true]
    split_ifs with h
    · exact Or.inr ⟨ac.1, ac.2, by simpa using hac, rfl, h.1⟩
    · exact hb

lemma foldl_isCand {sec : Bool} {t : Table} {pairs : List Pair} {st : EngState} :
    ∀ (l : List (ℕ × ℚ)) (b : Best), (∀ x ∈ l, x ∈ allCands t) →
      IsCandBest t pairs st b →
      IsCandBest t pairs st (l.foldl (updBest sec t pairs st) b)
  | [], b, _, hb => hb
  | x :: l, b, hl, hb => by
      rw [List.foldl_cons]
      exact foldl_isCand l _ (fun y hy => hl y (List.mem_cons_of_mem _ hy))
        (updBest_isCand (hl x (List.mem_cons_self ..)) hb)

lemma chooseBest_isCand (sec : Bool) (t : Table) (pairs : List Pair)
    (st : EngState) : IsCandBest t pairs st (chooseBest sec t pairs st) :=
  foldl_isCand _ _ (fun _ hx => hx) (Or.inl rfl)

lemma updBest_gz {sec : Bool} {t : Table} {pairs : List Pair} {st : EngState}
    {b : Best} {ac : ℕ × ℚ} (hb : b.gain = 0 → b.cutsCount = ⊤) :
    (updBest sec t pairs st b ac).gain = 0 →
      (updBest sec t pairs st b ac).cutsCount = ⊤ := by
  unfold updBest
  cases sec
  · simp only [Bool.false_eq_true, if_false]
    split_ifs with h
    · intro h0; omega
    · exact hb
  · simp only [if_true]
    split_ifs with h
    · intro h0; exact absurd h0 (by omega)
    · exact hb

lemma updBest_gain_zero {sec : Bool} {t : Table} {pairs : List Pair} {st : EngState}
    {b : Best} {ac : ℕ × ℚ} (hb : b.gain = 0 → b.cutsCount = ⊤) :
    (updBest sec t pairs st b ac).gain = 0 →
      b.gain = 0 ∧ (mkBest t pairs st ac.1 ac.2).gain = 0 := by
  unfold updBest
  cases sec
  · simp only [Bool.false_eq_true, if_false]
    split_ifs with h
    · intro h0; omega
    · intro h0; exact ⟨h0, by omega⟩
  · simp only [if_true]
    split_ifs with h
    · intro h0; exact absurd h0 (by omega)
    · intro h0
      refine ⟨h0, ?_⟩
      by_contra hg
      have hgpos : 0 < (mkBest t pairs st ac.1 ac.2).gain := by omega
      have htop : b.cutsCount = ⊤ := hb h0
      have hlt : (mkBest t pairs st ac.1 ac.2).cutsCount < b.cutsCount := by
        rw [htop]
        exact WithTop.coe_lt_top _
      exact h ⟨hgpos, Or.inl hlt⟩

lemma foldl_gain_zero {sec : Bool} {t : Table} {pairs : List Pair} {st : EngState} :
    ∀ (l : List (ℕ × ℚ)) (b : Best), (b.gain = 0 → b.cutsCount = ⊤) →
      (l.foldl (updBest sec t pairs st) b).gain = 0 →
      b.gain = 0 ∧ ∀ x ∈ l, (mkBest t pairs st x.1 x.2).gain = 0
  | [], b, _, h0 => ⟨h0, by simp⟩
  | x :: l, b, hb, h0 => by
      rw [List.foldl_cons] at h0
      obtain ⟨hux, hrest⟩ := foldl_gain_zero l _ (updBest_gz hb) h0
      obtain ⟨hbz, hxz⟩ := updBest_gain_zero hb hux
      refine ⟨hbz, ?_⟩
      intro y hy
      rcases List.mem_cons.mp hy with rfl | hy'
      · exact hxz
      · exact hrest y hy'

lemma chooseBest_gain_zero {sec : Bool} {t : Table} {pairs : List Pair}
    {st : EngState} (h : (chooseBest sec t pairs st).gain = 0) :
    ∀ a c, (a, c) ∈ allCands t → (newSeps t pairs st a c).card = 0 := by
  intro a c hac
  have := (foldl_gain_zero (allCands t) initBest (fun _ => rfl) h).2 (a, c) hac
  simpa [gain_mkBest] using this


lemma chooseBest_pos {sec : Bool} {t : Table} {pairs : List Pair} {st : EngState}
    (h : (chooseBest sec t pairs st).gain ≠ 0) :
    ∃ a c, (a, c) ∈ allCands t ∧ chooseBest sec t pairs st = mkBest t pairs st a c ∧
      0 < (newSeps t pairs st a c).card := by
  rcases chooseBest_isCand sec t pairs st with he | ⟨a, c, hmem, heq, hpos⟩
  · rw [he] at h; exact absurd rfl h
  · refine ⟨a, c, hmem, heq, ?_⟩
    rw [heq, gain_mkBest] at hpos
    exact hpos

/-! ### Commit and loop -/

lemma commit_mkBest (t : Table) (pairs : List Pair) (st : EngState) (a : ℕ) (c : ℚ) :
    commit st (mkBest t pairs st a c) =
      { cuts := st.cuts.set a (tempCuts st a c)
        separatedPairs := st.separatedPairs ∪ newSeps t pairs st a c
        cutsAdded := st.cutsAdded + 1
        cutsPerAttr := st.cutsPerAttr.set a (st.cutsPerAttr.getD a 0 + 1) } := rfl

lemma loop_stable {sec : Bool} {t : Table} {pairs : List Pair} {st : EngState}
    (h : (chooseBest sec t pairs st).gain = 0) (k : ℕ) :
    loop sec t pairs k st = st := by
  cases k with
  | zero => rfl
  | succ n => simp [loop, h]

lemma loop_succ (sec : Bool) (t : Table) (pairs : List Pair) :
    ∀ (k : ℕ) (st : EngState), loop sec t pairs (k + 1) st =
      engineStep sec t pairs (loop sec t pairs k st)
  | 0, st => by simp [loop, engineStep]
  | k + 1, st => by
      by_cases h : (chooseBest sec t pairs st).gain = 0
      · rw [loop_stable h, loop_stable h]
        simp [engineStep, h]
      · have h1 : loop sec t pairs (k + 1 + 1) st =
            loop sec t pairs (k + 1) (commit st (chooseBest sec t pairs st)) := by
          simp [loop, h]
        have h2 : loop sec t pairs (k + 1) st =
            loop sec t pairs k (commit st (chooseBest sec t pairs st)) := by
          simp [loop, h]
        rw [h1, h2, loop_succ sec t pairs k]

lemma loop_add (sec : Bool) (t : Table) (pairs : List Pair) :
    ∀ (m k : ℕ) (st : EngState), loop sec t pairs (m + k) st =
      loop sec t pairs k (loop sec t pairs m st)
  | 0, k, st => by rw [Nat.zero_add]; rfl
  | m + 1, k, st => by
      by_cases h : (chooseBest sec t pairs st).gain = 0
      · rw [loop_stable h, loop_stable h, loop_stable h]
      · have h1 : m + 1 + k = (m + k) + 1 := by omega
        have h2 : loop sec t pairs (m + 1 + k) st =
            loop sec t pairs (m + k) (commit st (chooseBest sec t pairs st)) := by
          rw [h1]; simp [loop, h]
        have h3 : loop sec t pairs (m + 1) st =
            loop sec t pairs m (commit st (chooseBest sec t pairs st)) := by
          simp [loop, h]
        rw [h2, h3, loop_add sec t pairs m k]

/-! ### The engine invariant -/

/-- `p` is separated by the committed cuts of the state. -/
def sepNow (t : Table) (st : EngState) (p : Pair) : Prop :=
  ∃ a, checkSeparation (valAt t p.1 a) (valAt t p.2 a) (st.cuts.getD a []) = true

lemma mem_separablePairs {t : Table} {p : Pair} :
    p ∈ separablePairs t ↔
      p ∈ genPairs t ∧ ∃ a < t.nAttrs, valAt t p.1 a ≠ valAt t p.2 a := by
  simp [separablePairs, List.mem_filter]

/-- Invariant maintained by every round of the greedy loop. -/
structure EngInv (t : Table) (st : EngState) : Prop where
  cutsLen : st.cuts.length = t.nAttrs
  sorted : ∀ a, (st.cuts.getD a []).Sorted (· < ·)
  memCand : ∀ a, ∀ c ∈ st.cuts.getD a [], c ∈ findPossibleCuts (colN t a)
  sepSub : ∀ p ∈ st.separatedPairs, p ∈ separablePairs t
  sepClosed : ∀ p ∈ genPairs t, sepNow t st p → p ∈ st.separatedPairs

lemma getD_replicate_nil {n a : ℕ} :
    (List.replicate n ([] : List ℚ)).getD a [] = [] := by
  rcases lt_or_ge a n with h | h
  · simp [List.getD_eq_getElem?_getD, List.getElem?_replicate, h]
  · simp [List.getD_eq_getElem?_getD, List.getElem?_replicate, Nat.not_lt.mpr h]

lemma engInv_init (t : Table) : EngInv t (initState t) := by
  refine ⟨by simp [initState], ?_, ?_, ?_, ?_⟩
  · intro a
    rw [show (initState t).cuts = List.replicate t.nAttrs [] from rfl, getD_replicate_nil]
    exact List.sorted_nil
  · intro a c hc
    rw [show (initState t).cuts = List.replicate t.nAttrs [] from rfl,
      getD_replicate_nil] at hc
    exact absurd hc (List.not_mem_nil c)
  · intro p hp
    exact absurd hp (Finset.not_mem_empty p)
  · intro p _ hsep
    obtain ⟨a, ha⟩ := hsep
    rw [show (initState t).cuts = List.replicate t.nAttrs [] from rfl,
      getD_replicate_nil, checkSeparation_nil] at ha
    exact absurd ha (by simp)


lemma commit_cuts (t : Table) (pairs : List Pair) (st : EngState) (a : ℕ) (c : ℚ) :
    (commit st (mkBest t pairs st a c)).cuts = st.cuts.set a (tempCuts st a c) := rfl

lemma commit_sep (t : Table) (pairs : List Pair) (st : EngState) (a : ℕ) (c : ℚ) :
    (commit st (mkBest t pairs st a c)).separatedPairs =
      st.separatedPairs ∪ newSeps t pairs st a c := rfl

lemma commit_cutsAdded (t : Table) (pairs : List Pair) (st : EngState) (a : ℕ)
    (c : ℚ) : (commit st (mkBest t pairs st a c)).cutsAdded = st.cutsAdded + 1 := rfl

lemma engInv_commit {sec : Bool} {t : Table} {st : EngState} (hinv : EngInv t st)
    (h : (chooseBest sec t (genPairs t) st).gain ≠ 0) :
    EngInv t (commit st (chooseBest sec t (genPairs t) st)) := by
  obtain ⟨a, c, hmem, heq, hpos⟩ := chooseBest_pos h
  obtain ⟨haN, hcut⟩ := mem_allCands.mp hmem
  rw [heq]
  have halen : a < st.cuts.length := by rw [hinv.cutsLen]; exact haN
  have hcnotmem : c ∉ st.cuts.getD a [] := by
    intro hcm
    obtain ⟨p, hp⟩ := Finset.card_pos.mp hpos
    obtain ⟨hpg, hpns, hpsep⟩ := mem_newSeps.mp hp
    have hcong : checkSeparation (valAt t p.1 a) (valAt t p.2 a) (tempCuts st a c) =
        checkSeparation (valAt t p.1 a) (valAt t p.2 a) (st.cuts.getD a []) := by
      refine checkSeparation_mem_congr (fun z => ?_)
      rw [mem_tempCuts]
      constructor
      · rintro (hz | rfl)
        · exact hz
        · exact hcm
      · exact Or.inl
    exact hpns (hinv.sepClosed p hpg ⟨a, by rw [← hcong]; exact hpsep⟩)
  have hgetD_self : (st.cuts.set a (tempCuts st a c)).getD a [] = tempCuts st a c := by
    simp [List.getD_eq_getElem?_getD, List.getElem?_set_self halen]
  have hgetD_ne : ∀ b, b ≠ a →
      (st.cuts.set a (tempCuts st a c)).getD b [] = st.cuts.getD b [] := by
    intro b hb
    simp [List.getD_eq_getElem?_getD, List.getElem?_set_ne (fun hh => hb hh.symm)]
  have htemp_nodup : (tempCuts st a c).Nodup := by
    refine ((List.perm_insertionSort _ _).nodup_iff).mpr ?_
    rw [List.nodup_append]
    exact ⟨(hinv.sorted a).nodup, List.nodup_singleton c,
      List.disjoint_singleton.mpr hcnotmem⟩
  have htemp_sorted : (tempCuts st a c).Sorted (· < ·) :=
    List.Sorted.lt_of_le (List.sorted_insertionSort _ _) htemp_nodup
  refine ⟨?_, ?_, ?_, ?_, ?_⟩
  · rw [commit_cuts, List.length_set]
    exact hinv.cutsLen
  · intro b
    rw [commit_cuts]
    by_cases hb : b = a
    · subst hb; rw [hgetD_self]; exact htemp_sorted
    · rw [hgetD_ne b hb]; exact hinv.sorted b
  · intro b z hz
    rw [commit_cuts] at hz
    by_cases hb : b = a
    · subst hb
      rw [hgetD_self] at hz
      rcases mem_tempCuts.mp hz with hz' | rfl
      · exact hinv.memCand _ z hz'
      · exact hcut
    · rw [hgetD_ne b hb] at hz
      exact hinv.memCand b z hz
  · intro p hp
    rw [commit_sep] at hp
    rcases Finset.mem_union.mp hp with hp1 | hp2
    · exact hinv.sepSub p hp1
    · obtain ⟨hpg, _, hpsep⟩ := mem_newSeps.mp hp2
      exact mem_separablePairs.mpr ⟨hpg, a, haN, checkSeparation_ne hpsep⟩
  · intro p hpg hsep
    rw [commit_sep]
    obtain ⟨b, hb⟩ := hsep
    rw [commit_cuts] at hb
    by_cases hba : b = a
    · subst hba
      rw [hgetD_self] at hb
      by_cases hps : p ∈ st.separatedPairs
      · exact Finset.mem_union_left _ hps
      · exact Finset.mem_union_right _ (mem_newSeps.mpr ⟨hpg, hps, hb⟩)
    · rw [hgetD_ne b hba] at hb
      exact Finset.mem_union_left _ (hinv.sepClosed p hpg ⟨b, hb⟩)

lemma engInv_step {sec : Bool} {t : Table} {st : EngState} (hinv : EngInv t st) :
    EngInv t (engineStep sec t (genPairs t) st) := by
  unfold engineStep
  split_ifs with h
  · exact hinv
  · exact engInv_commit hinv h

lemma engInv_loop (sec : Bool) (t : Table) (k : ℕ) :
    EngInv t (loop sec t (genPairs t) k (initState t)) := by
  induction k with
  | zero => exact engInv_init t
  | succ n ih =>
      rw [loop_succ]
      exact engInv_step ih

/-! ### Growth of the separated-pairs set -/

lemma engineStep_sep_subset (sec : Bool) (t : Table) (pairs : List Pair)
    (st : EngState) :
    st.separatedPairs ⊆ (engineStep sec t pairs st).separatedPairs := by
  unfold engineStep
  split_ifs with h
  · exact Finset.Subset.refl _
  · obtain ⟨a, c, _, heq, _⟩ := chooseBest_pos h
    rw [heq, commit_sep]
    exact Finset.subset_union_left

lemma engineStep_sep_card_lt {sec : Bool} {t : Table} {pairs : List Pair}
    {st : EngState} (h : (chooseBest sec t pairs st).gain ≠ 0) :
    st.separatedPairs.card < (engineStep sec t pairs st).separatedPairs.card := by
  unfold engineStep
  rw [if_neg h]
  obtain ⟨a, c, _, heq, hpos⟩ := chooseBest_pos h
  rw [heq, commit_sep, Finset.card_union_of_disjoint (newSeps_disjoint t pairs st a c)]
  omega

/-! ### Termination -/

lemma loop_terminal {sec : Bool} {t : Table} :
    ∀ (fuel : ℕ) (st : EngState), st.separatedPairs ⊆ (genPairs t).toFinset →
      (genPairs t).toFinset.card - st.separatedPairs.card < fuel →
      (chooseBest sec t (genPairs t) (loop sec t (genPairs t) fuel st)).gain = 0
  | 0, st, _, hfuel => absurd hfuel (by omega)
  | fuel + 1, st, hsub, hfuel => by
      by_cases h : (chooseBest sec t (genPairs t) st).gain = 0
      · rw [loop_stable h]
        exact h
      · obtain ⟨a, c, hmem, heq, hpos⟩ := chooseBest_pos h
        have hstep : loop sec t (genPairs t) (fuel + 1) st =
            loop sec t (genPairs t) fuel (commit st (chooseBest sec t (genPairs t) st)) := by
          simp [loop, h]
        rw [hstep, heq]
        have hsub' : (commit st (mkBest t (genPairs t) st a c)).separatedPairs ⊆
            (genPairs t).toFinset := by
          rw [commit_sep]
          intro p hp
          rcases Finset.mem_union.mp hp with h1 | h2
          · exact hsub h1
          · exact List.mem_toFinset.mpr (mem_newSeps.mp h2).1
        refine loop_terminal fuel _ hsub' ?_
        have hcard : (commit st (mkBest t (genPairs t) st a c)).separatedPairs.card =
            st.separatedPairs.card + (newSeps t (genPairs t) st a c).card := by
          rw [commit_sep,
            Finset.card_union_of_disjoint (newSeps_disjoint t (genPairs t) st a c)]
        have hle := Finset.card_le_card hsub'
        omega

lemma runEngine_terminal (t : Table) (sec : Bool) :
    (chooseBest sec t (genPairs t) (runEngine t sec)).gain = 0 := by
  unfold runEngine
  refine loop_terminal _ _ ?_ ?_
  · intro p hp
    exact absurd hp (Finset.not_mem_empty p)
  · have := List.toFinset_card_le (l := genPairs t)
    show (genPairs t).toFinset.card - (∅ : Finset Pair).card < (genPairs t).length + 1
    simp only [Finset.card_empty]
    omega

/-! ### The terminal separated set -/

lemma terminal_sep_eq {sec : Bool} {t : Table} {st : EngState} (hinv : EngInv t st)
    (h : (chooseBest sec t (genPairs t) st).gain = 0) :
    st.separatedPairs = separablePairs t := by
  apply Finset.Subset.antisymm
  · intro p hp
    exact hinv.sepSub p hp
  · intro p hp
    obtain ⟨hpg, a, ha, hne⟩ := mem_separablePairs.mp hp
    by_contra hns
    obtain ⟨hi, hj⟩ := genPairs_lt_length hpg
    have hx := valAt_mem_colN a hi
    have hy := valAt_mem_colN a hj
    have hsep : ∃ c ∈ findPossibleCuts (colN t a),
        checkSeparation (valAt t p.1 a) (valAt t p.2 a) (tempCuts st a c) = true := by
      rcases hne.lt_or_lt with hxy | hyx
      · obtain ⟨c, hcm, hc1, hc2⟩ := exists_cut_between hx hy hxy
        exact ⟨c, hcm, checkSeparation_iff.mpr
          ⟨c, mem_tempCuts.mpr (Or.inr rfl), Or.inl ⟨hc1, hc2⟩⟩⟩
      · obtain ⟨c, hcm, hc1, hc2⟩ := exists_cut_between hy hx hyx
        exact ⟨c, hcm, checkSeparation_iff.mpr
          ⟨c, mem_tempCuts.mpr (Or.inr rfl), Or.inr ⟨hc1, hc2⟩⟩⟩
    obtain ⟨c, hcm, hchk⟩ := hsep
    have hz := chooseBest_gain_zero h a c (mem_allCands.mpr ⟨ha, hcm⟩)
    have hpmem : p ∈ newSeps t (genPairs t) st a c :=
      mem_newSeps.mpr ⟨hpg, hns, hchk⟩
    exact Finset.card_ne_zero_of_mem hpmem hz

/-! ### Interval mapper -/

lemma assignIntervalGo_snd_mem {v : ℚ} : ∀ (cuts : List ℚ) (left : Option ℚ) {c : ℚ},
    (assignIntervalGo v left cuts).2 = some c → c ∈ cuts
  | [], left, c => by simp [assignIntervalGo]
  | d :: rest, left, c => by
      simp only [assignIntervalGo]
      split_ifs with hv
      · intro h
        have hdc : d = c := Option.some.inj h
        exact hdc ▸ List.mem_cons_self ..
      · intro h
        exact List.mem_cons_of_mem _ (assignIntervalGo_snd_mem rest (some d) h)

lemma assignIntervalGo_eq_iff {x y : ℚ} : ∀ (cuts : List ℚ), cuts.Sorted (· < ·) →
    ∀ (left : Option ℚ),
    (assignIntervalGo x left cuts = assignIntervalGo y left cuts ↔
      ∀ c ∈ cuts, (x ≤ c ↔ y ≤ c))
  | [], _, left => by simp [assignIntervalGo]
  | d :: rest, hsort, left => by
      obtain ⟨hd, hrest⟩ := List.sorted_cons.mp hsort
      simp only [assignIntervalGo]
      by_cases hx : x ≤ d <;> by_cases hy : y ≤ d
      · rw [if_pos hx, if_pos hy]
        constructor
        · intro _ c hc
          rcases List.mem_cons.mp hc with rfl | hc'
          · exact iff_of_true hx hy
          · have hdc := hd c hc'
            exact iff_of_true (le_of_lt (lt_of_le_of_lt hx hdc))
              (le_of_lt (lt_of_le_of_lt hy hdc))
        · intro _
          rfl
      · rw [if_pos hx, if_neg hy]
        constructor
        · intro hEq
          exfalso
          have hsndEq := congrArg Prod.snd hEq
          rcases hsnd : (assignIntervalGo y (some d) rest).2 with _ | c'
          · rw [hsnd] at hsndEq
            simp at hsndEq
          · rw [hsnd] at hsndEq
            have hdc : d = c' := Option.some.inj hsndEq
            have hc' : c' ∈ rest := assignIntervalGo_snd_mem rest _ hsnd
            have hlt := hd c' hc'
            rw [← hdc] at hlt
            exact lt_irrefl d hlt
        · intro hall
          exact absurd ((hall d (List.mem_cons_self ..)).mp hx) hy
      · rw [if_neg hx, if_pos hy]
        constructor
        · intro hEq
          exfalso
          have hsndEq := congrArg Prod.snd hEq
          rcases hsnd : (assignIntervalGo x (some d) rest).2 with _ | c'
          · rw [hsnd] at hsndEq
            simp at hsndEq
          · rw [hsnd] at hsndEq
            have hdc : c' = d := Option.some.inj hsndEq
            have hc' : c' ∈ rest := assignIntervalGo_snd_mem rest _ hsnd
            have hlt := hd c' hc'
            rw [hdc] at hlt
            exact lt_irrefl d hlt
        · intro hall
          exact absurd ((hall d (List.mem_cons_self ..)).mpr hy) hx
      · rw [if_neg hx, if_neg hy]
        rw [assignIntervalGo_eq_iff rest hrest (some d)]
        constructor
        · intro hr c hc
          rcases List.mem_cons.mp hc with rfl | hc'
          · exact iff_of_false hx hy
          · exact hr c hc'
        · intro hall c hc
          exact hall c (List.mem_cons_of_mem _ hc)

lemma assignInterval_eq_iff {cuts : List ℚ} (hsort : cuts.Sorted (· < ·)) (x y : ℚ) :
    assignInterval cuts x = assignInterval cuts y ↔
      ∀ c ∈ cuts, (x ≤ c ↔ y ≤ c) := by
  unfold assignInterval
  split_ifs with hnil
  · subst hnil
    simp
  · exact assignIntervalGo_eq_iff cuts hsort none

lemma le_iff_of_ne {x y c : ℚ} (hxc : x ≠ c) (hyc : y ≠ c) :
    (x ≤ c ↔ y ≤ c) ↔ ¬((x < c ∧ c < y) ∨ (y < c ∧ c < x)) := by
  constructor
  · rintro h (⟨h1, h2⟩ | ⟨h1, h2⟩)
    · exact absurd (h.mp (le_of_lt h1)) (not_le.mpr h2)
    · exact absurd (h.mpr (le_of_lt h1)) (not_le.mpr h2)
  · intro hn
    constructor
    · intro hxle
      by_contra hyc'
      exact hn (Or.inl ⟨lt_of_le_of_ne hxle hxc, not_le.mp hyc'⟩)
    · intro hyle
      by_contra hxc'
      exact hn (Or.inr ⟨lt_of_le_of_ne hyle hyc, not_le.mp hxc'⟩)

/-! ### Remaining helpers for the claim theorems -/

lemma getD_set_self' {l : List (List ℚ)} {a : ℕ} (h : a < l.length) (x : List ℚ) :
    (l.set a x).getD a [] = x := by
  simp [List.getD_eq_getElem?_getD, List.getElem?_set_self h]

lemma getD_set_ne' {l : List (List ℚ)} {a b : ℕ} (h : b ≠ a) (x : List ℚ) :
    (l.set a x).getD b [] = l.getD b [] := by
  simp [List.getD_eq_getElem?_getD, List.getElem?_set_ne (fun hh => h hh.symm)]

lemma cut_not_mem_of_gain {t : Table} {st : EngState} {a : ℕ} {c : ℚ}
    (hinv : EngInv t st) (hpos : 0 < (newSeps t (genPairs t) st a c).card) :
    c ∉ st.cuts.getD a [] := by
  intro hcm
  obtain ⟨p, hp⟩ := Finset.card_pos.mp hpos
  obtain ⟨hpg, hpns, hpsep⟩ := mem_newSeps.mp hp
  have hcong : checkSeparation (valAt t p.1 a) (valAt t p.2 a) (tempCuts st a c) =
      checkSeparation (valAt t p.1 a) (valAt t p.2 a) (st.cuts.getD a []) := by
    refine checkSeparation_mem_congr (fun z => ?_)
    rw [mem_tempCuts]
    constructor
    · rintro (hz | rfl)
      · exact hz
      · exact hcm
    · exact Or.inl
  exact hpns (hinv.sepClosed p hpg ⟨a, by rw [← hcong]; exact hpsep⟩)

/-! ### Concrete tables from the repository's test-suite and spec scenarios -/

/-- Two attributes; decisions 0,1,1,0.  On this table the primary criterion
needs 2 cuts while the secondary criterion commits 3. -/
def TableCex : Table := ⟨2, [([0, 0], 0), ([1, 1], 1), ([2, 0], 1), ([3, 1], 0)]⟩

/-- The table of `test_discretize_criteria_comparison`. -/
def TableTest8 : Table :=
  ⟨2, [([1, 1/2], 0), ([2, 3/2], 1), ([3, 5/2], 0), ([4, 7/2], 1),
       ([5, 9/2], 0), ([6, 11/2], 1), ([7, 13/2], 0), ([8, 15/2], 1)]⟩

/-- The single-attribute scenario table of §8 / `test_already_separated_data`:
rows (1.0,A), (2.0,B), (1.1,A), (2.1,B). -/
def TableScenario : Table := ⟨1, [([1], 0), ([2], 1), ([11/10], 0), ([21/10], 1)]⟩

/-! ### Claim theorems -/

/-- Claim C1, counterexample: on `TableCex` the secondary criterion adds 3 cuts
while the primary adds 2, so `cuts_added(secondary) ≤ cuts_added(primary)` fails. -/
theorem C1_counterexample :
    ¬((runEngine TableCex true).cutsAdded ≤ (runEngine TableCex false).cutsAdded) := by
  decide

set_option maxHeartbeats 8000000 in
/-- Claim C1, amended: the fewer-or-equal-cuts relation between the secondary and
primary criteria is not guaranteed for every table, but it does hold on the fixed
table of the repository's criteria-comparison regression test. -/
theorem C1_amended_on_test_table :
    (runEngine TableTest8 true).cutsAdded ≤ (runEngine TableTest8 false).cutsAdded := by
  decide

/-- Claim C4: the separation oracle returns true iff some cut in the set has the
two values on opposite sides, with a value equal to a cut lying on the left
(`≤`) side; the oracle is a function of its two values and the cut set only. -/
theorem C4_separation_oracle (x y : ℚ) (cuts : List ℚ) :
    checkSeparation x y cuts = true ↔
      ∃ c ∈ cuts, (x ≤ c ∧ c < y) ∨ (y ≤ c ∧ c < x) :=
  checkSeparation_iff

/-- Claim C6: the pair index is exactly the set of row-index pairs with
differing decisions, canonicalized `i < j`, without duplicates; with fewer than
2 rows it is (non-erroneously) empty. -/
theorem C6_pair_index (t : Table) :
    (genPairs t).Nodup ∧
    (∀ i j : ℕ, (i, j) ∈ genPairs t ↔
      i < j ∧ j < t.rows.length ∧ decAt t i ≠ decAt t j) ∧
    (t.rows.length < 2 → genPairs t = []) := by
  refine ⟨nodup_genPairs t, fun i j => mem_genPairs, fun hlen => ?_⟩
  rw [List.eq_nil_iff_forall_not_mem]
  rintro ⟨i, j⟩ hp
  obtain ⟨hij, hj, _⟩ := mem_genPairs.mp hp
  omega

/-- Witness for Claim C6 at a one-row table. -/
theorem C6_pair_index_witness : genPairs ⟨1, [([5], 3)]⟩ = [] :=
  (C6_pair_index ⟨1, [([5], 3)]⟩).2.2 (by decide)

/-- Claim C9: on the spec's scenario table the engine under the primary
criterion sees 4 discordant pairs, commits exactly the one cut 1.55 = 31/20,
separates all 4 pairs, reports coverage 1 and cuts_added 1, and the
discretized column has exactly two distinct interval labels. -/
theorem C9_scenario :
    (genPairs TableScenario).length = 4 ∧
    (runEngine TableScenario false).cutsAdded = 1 ∧
    (runEngine TableScenario false).cuts.getD 0 [] = [31/20] ∧
    (runEngine TableScenario false).separatedPairs.card = 4 ∧
    coverage TableScenario (runEngine TableScenario false) = 1 ∧
    ((discretizedColumn TableScenario (runEngine TableScenario false) 0).toFinset).card
      = 2 := by
  decide

/-- Claim C3: per-attribute cut sets start empty, are always strictly
increasing sequences of distinct thresholds strictly inside the observed range
of the attribute, and each non-terminal round adds exactly one new cut to
exactly one attribute, never removing any. -/
theorem C3_cut_set_invariants (t : Table) (sec : Bool) (k : ℕ) :
    (∀ a, (initState t).cuts.getD a [] = []) ∧
    (∀ a, ((loop sec t (genPairs t) k (initState t)).cuts.getD a []).Sorted (· < ·)) ∧
    (∀ a c, c ∈ (loop sec t (genPairs t) k (initState t)).cuts.getD a [] →
      (∃ v ∈ colN t a, v < c) ∧ (∃ w ∈ colN t a, c < w)) ∧
    (loop sec t (genPairs t) (k + 1) (initState t) =
        loop sec t (genPairs t) k (initState t) ∨
      ∃ a c, a < t.nAttrs ∧
        c ∉ (loop sec t (genPairs t) k (initState t)).cuts.getD a [] ∧
        ((loop sec t (genPairs t) (k + 1) (initState t)).cuts.getD a []).Perm
          (c :: (loop sec t (genPairs t) k (initState t)).cuts.getD a []) ∧
        ∀ b, b ≠ a →
          (loop sec t (genPairs t) (k + 1) (initState t)).cuts.getD b [] =
            (loop sec t (genPairs t) k (initState t)).cuts.getD b []) := by
  have hinv := engInv_loop sec t k
  refine ⟨fun a => getD_replicate_nil, fun a => hinv.sorted a, ?_, ?_⟩
  · intro a c hc
    exact findPossibleCuts_strict_range (hinv.memCand a c hc)
  · rw [loop_succ]
    unfold engineStep
    split_ifs with h
    · exact Or.inl rfl
    · right
      obtain ⟨a, c, hmem, heq, hpos⟩ := chooseBest_pos h
      obtain ⟨haN, _⟩ := mem_allCands.mp hmem
      have halen : a < (loop sec t (genPairs t) k (initState t)).cuts.length := by
        rw [hinv.cutsLen]; exact haN
      refine ⟨a, c, haN, cut_not_mem_of_gain hinv hpos, ?_, ?_⟩
      · rw [heq, commit_cuts, getD_set_self' halen]
        exact (List.perm_insertionSort _ _).trans (List.perm_append_singleton ..)
      · intro b hb
        rw [heq, commit_cuts, getD_set_ne' hb]

/-- Witness for Claim C3: the committed cut 31/20 of the scenario run lies
strictly inside the observed range of the attribute. -/
theorem C3_cut_set_invariants_witness :
    (∃ v ∈ colN TableScenario 0, v < 31/20) ∧
      ∃ w ∈ colN TableScenario 0, (31 : ℚ)/20 < w :=
  (C3_cut_set_invariants TableScenario false 1).2.2.1 0 (31/20) (by decide)

/-- Claim C5: the candidate generator produces a strictly sorted list of
midpoints over the sorted distinct values, of length (number of distinct
values) − 1, empty when there are fewer than 2 distinct values; and whatever
the engine state, a selected cut always comes from the candidate list computed
fresh from the original full column. -/
theorem C5_candidate_generator :
    (∀ vals : List ℚ,
      (sortedDedup vals).Sorted (· < ·) ∧
      (∀ x, x ∈ sortedDedup vals ↔ x ∈ vals) ∧
      (findPossibleCuts vals).Sorted (· < ·) ∧
      (findPossibleCuts vals).length = vals.toFinset.card - 1 ∧
      (vals.toFinset.card < 2 → findPossibleCuts vals = [])) ∧
    ∀ (sec : Bool) (t : Table) (pairs : List Pair) (st : EngState) (a : ℕ) (c : ℚ),
      (chooseBest sec t pairs st).attr = some a →
      (chooseBest sec t pairs st).cut = some c →
      c ∈ findPossibleCuts (colN t a) := by
  constructor
  · intro vals
    refine ⟨sortedDedup_sorted_lt vals, fun x => mem_sortedDedup,
      findPossibleCuts_sorted vals, length_findPossibleCuts vals, ?_⟩
    intro hcard
    have := length_findPossibleCuts vals
    rw [← List.length_eq_zero]
    omega
  · intro sec t pairs st a c hattr hcut
    rcases chooseBest_isCand sec t pairs st with he | ⟨a', c', hmem, heq, _⟩
    · rw [he] at hattr
      exact absurd hattr (by simp [initBest])
    · rw [heq] at hattr hcut
      have ha : a' = a := Option.some.inj hattr
      have hc : c' = c := Option.some.inj hcut
      subst ha
      subst hc
      exact (mem_allCands.mp hmem).2

/-- Witness for Claim C5: the scenario run's first selected cut 31/20 is one of
the fresh midpoint candidates, and a column with a single distinct value has no
candidates. -/
theorem C5_candidate_generator_witness :
    ((31 : ℚ)/20 ∈ findPossibleCuts (colN TableScenario 0)) ∧
      findPossibleCuts [(5 : ℚ), 5] = [] :=
  ⟨C5_candidate_generator.2 false TableScenario (genPairs TableScenario)
      (initState TableScenario) 0 (31/20) (by decide) (by decide),
    (C5_candidate_generator.1 [(5 : ℚ), 5]).2.2.2.2 (by decide)⟩

/-- Claim C7: under any frozen post-loop cut sequence, mapping a value is
deterministic, and two observed raw values of the attribute receive the same
interval label iff no cut lies strictly between them. -/
theorem C7_frozen_mapping (t : Table) (sec : Bool) (a : ℕ) (x y : ℚ)
    (hx : x ∈ colN t a) (hy : y ∈ colN t a) :
    assignInterval ((runEngine t sec).cuts.getD a []) x =
      assignInterval ((runEngine t sec).cuts.getD a []) x ∧
    (assignInterval ((runEngine t sec).cuts.getD a []) x =
        assignInterval ((runEngine t sec).cuts.getD a []) y ↔
      ¬∃ c ∈ (runEngine t sec).cuts.getD a [],
        (x < c ∧ c < y) ∨ (y < c ∧ c < x)) := by
  have hinv : EngInv t (runEngine t sec) :=
    engInv_loop sec t ((genPairs t).length + 1)
  refine ⟨rfl, ?_⟩
  rw [assignInterval_eq_iff (hinv.sorted a)]
  constructor
  · intro hall
    rintro ⟨c, hc, hstrict⟩
    have hxc : x ≠ c := findPossibleCuts_not_mem (hinv.memCand a c hc) hx
    have hyc : y ≠ c := findPossibleCuts_not_mem (hinv.memCand a c hc) hy
    exact (le_iff_of_ne hxc hyc).mp (hall c hc) hstrict
  · intro hn c hc
    have hxc : x ≠ c := findPossibleCuts_not_mem (hinv.memCand a c hc) hx
    have hyc : y ≠ c := findPossibleCuts_not_mem (hinv.memCand a c hc) hy
    exact (le_iff_of_ne hxc hyc).mpr (fun hs => hn ⟨c, hc, hs⟩)

/-- Witness for Claim C7 at the scenario table, values 1.0 and 2.0. -/
theorem C7_frozen_mapping_witness :
    (1 : ℚ) ∈ colN TableScenario 0 ∧ (2 : ℚ) ∈ colN TableScenario 0 ∧
    (assignInterval ((runEngine TableScenario false).cuts.getD 0 []) 1 =
        assignInterval ((runEngine TableScenario false).cuts.getD 0 []) 2 ↔
      ¬∃ c ∈ (runEngine TableScenario false).cuts.getD 0 [],
        ((1 : ℚ) < c ∧ c < 2) ∨ ((2 : ℚ) < c ∧ c < 1)) :=
  ⟨by decide, by decide,
    (C7_frozen_mapping TableScenario false 0 1 2 (by decide) (by decide)).2⟩

/-- Claim C8: the separated-pairs set never loses members from one round to the
next, its size is non-decreasing, and it strictly increases in every round that
commits a cut (every round whose best gain is nonzero). -/
theorem C8_monotonicity (t : Table) (sec : Bool) (k : ℕ) :
    (loop sec t (genPairs t) k (initState t)).separatedPairs ⊆
      (loop sec t (genPairs t) (k + 1) (initState t)).separatedPairs ∧
    (loop sec t (genPairs t) k (initState t)).separatedPairs.card ≤
      (loop sec t (genPairs t) (k + 1) (initState t)).separatedPairs.card ∧
    ((chooseBest sec t (genPairs t)
        (loop sec t (genPairs t) k (initState t))).gain ≠ 0 →
      (loop sec t (genPairs t) k (initState t)).separatedPairs.card <
        (loop sec t (genPairs t) (k + 1) (initState t)).separatedPairs.card) := by
  rw [loop_succ]
  exact ⟨engineStep_sep_subset .., Finset.card_le_card (engineStep_sep_subset ..),
    fun h => engineStep_sep_card_lt h⟩

/-- Witness for Claim C8: the scenario run's first round strictly grows the
separated set. -/
theorem C8_monotonicity_witness :
    (loop false TableScenario (genPairs TableScenario) 0
        (initState TableScenario)).separatedPairs.card <
      (loop false TableScenario (genPairs TableScenario) 1
        (initState TableScenario)).separatedPairs.card :=
  (C8_monotonicity TableScenario false 0).2.2 (by decide)

/-- Claim C10: the loop reaches a state with no positive-gain candidate under
both criteria (more fuel changes nothing), at which point the separated set
equals exactly the discordant pairs differing on some attribute; hence both
criteria agree on separated_pairs count and coverage. -/
theorem C10_convergence (t : Table) :
    (∀ sec : Bool, (chooseBest sec t (genPairs t) (runEngine t sec)).gain = 0) ∧
    (∀ (sec : Bool) (m : ℕ),
      loop sec t (genPairs t) ((genPairs t).length + 1 + m) (initState t) =
        runEngine t sec) ∧
    (runEngine t false).separatedPairs = separablePairs t ∧
    (runEngine t true).separatedPairs = separablePairs t ∧
    (runEngine t false).separatedPairs.card = (runEngine t true).separatedPairs.card ∧
    coverage t (runEngine t false) = coverage t (runEngine t true) := by
  have hterm : ∀ sec : Bool, (chooseBest sec t (genPairs t) (runEngine t sec)).gain = 0 :=
    fun sec => runEngine_terminal t sec
  have hsep : ∀ sec : Bool, (runEngine t sec).separatedPairs = separablePairs t :=
    fun sec => terminal_sep_eq (engInv_loop sec t ((genPairs t).length + 1)) (hterm sec)
  refine ⟨hterm, ?_, hsep false, hsep true, ?_, ?_⟩
  · intro sec m
    rw [loop_add sec t (genPairs t) ((genPairs t).length + 1) m (initState t)]
    exact loop_stable (hterm sec) m
  · rw [hsep false, hsep true]
  · unfold coverage
    rw [hsep false, hsep true]

end Discret
